import Mathlib

/-!
Verification of the usernode-circuits transaction/batching layer.

Shallow embedding of the Rust sources (`bn254.rs`, `poseidon2.rs`, `batch.rs`,
`types.rs`, `tx.rs`, `catalog.rs`).  Field elements of the BN254 scalar field
are modelled as natural numbers holding the canonical representative, with the
backend arithmetic (`bb_fr_add`/`bb_fr_sub`/`bb_fr_mul`) made explicit as
`% FP` operations; the backend Poseidon2 permutation (`bb_poseidon2_permutation_bn254`)
is an opaque external primitive and is threaded through every hashing
definition as an explicit parameter `p4 : St4 → St4`.
-/

namespace UC

/-- Modulus of the BN254 scalar field implemented by the `bb_fr_*` backend calls. -/
def FP : Nat := 21888242871839275222246405745257275088548364400416034343698204186575808495617

/-- A BN254 field element: the canonical representative `< FP` of the 32-byte
big-endian encoding used by `bn254.rs::Field`. -/
abbrev F := Nat

/-- Source `bb_fr_add`: field addition. -/
def fadd (a b : F) : F := (a + b) % FP

/-- Source `bb_fr_sub`: field subtraction. -/
def fsub (a b : F) : F := (a + (FP - b % FP)) % FP

/-- Source `bb_fr_mul`: field multiplication. -/
def fmul (a b : F) : F := a * b % FP

/-- Source `bb_fr_cmp` / `PartialOrd for Field`: comparison of canonical values.
For reduced elements this coincides with `field_cmp` in `batch.rs`, which
compares the 32-byte big-endian encodings lexicographically. -/
def fle (a b : F) : Bool := a ≤ b

/-- The 4-wide permutation state `[Field; 4]` of `poseidon2.rs`. -/
structure St4 where
  s0 : F
  s1 : F
  s2 : F
  s3 : F
deriving Repr, DecidableEq

/-- Loop state of `hash_fields`: the 4-slot sponge state plus the 3-slot
cache array and its fill counter `cache_size`. -/
structure AbsorbSt where
  state : St4
  c0 : F
  c1 : F
  c2 : F
  cache_size : Nat
deriving Repr, DecidableEq

/-- One iteration of the `for &f in inputs` loop in `hash_fields`:
if the cache is full, fold it into the first three state slots, permute,
and restart the cache with the overflow element; otherwise append `f`
to the cache. -/
def absorbStep (p4 : St4 → St4) (st : AbsorbSt) (f : F) : AbsorbSt :=
  if st.cache_size == 3 then
    let s := p4 ⟨fadd st.state.s0 st.c0, fadd st.state.s1 st.c1,
                fadd st.state.s2 st.c2, st.state.s3⟩
    ⟨s, f, 0, 0, 1⟩
  else if st.cache_size == 0 then
    { st with c0 := f, cache_size := 1 }
  else if st.cache_size == 1 then
    { st with c1 := f, cache_size := 2 }
  else
    { st with c2 := f, cache_size := 3 }

/-- The final `for (j, (s, c))` loop of `hash_fields`: add the cache slots
`j < cache_size` into the first three state slots. -/
def finalAdd (st : AbsorbSt) : St4 :=
  ⟨if 0 < st.cache_size then fadd st.state.s0 st.c0 else st.state.s0,
   if 1 < st.cache_size then fadd st.state.s1 st.c1 else st.state.s1,
   if 2 < st.cache_size then fadd st.state.s2 st.c2 else st.state.s2,
   st.state.s3⟩

/-- Source `poseidon2.rs::hash_fields`: the rate-3 sponge. `iv = 2^64 * len`,
state starts `[0,0,0,iv]`, inputs are buffered through the 3-slot cache,
and the squeeze returns `state[0]` after the final permutation. -/
def hash_fields (p4 : St4 → St4) (inputs : List F) : F :=
  let iv : F := fmul ((2:Nat) ^ 64) inputs.length
  let init : AbsorbSt := ⟨⟨0, 0, 0, iv⟩, 0, 0, 0, 0⟩
  let fin := inputs.foldl (absorbStep p4) init
  (p4 (finalAdd fin)).s0

/-- Source `hash6`. -/
def hash6 (p4 : St4 → St4) (xs : List F) : F := hash_fields p4 xs

/-- Source `hash10` (UTXO commitment hash, no tag prefix). -/
def hash10 (p4 : St4 → St4) (xs : List F) : F := hash_fields p4 xs

/-- Tagged pairwise combiner `h2` (`BATCH_TAG = 20`). -/
def h2 (p4 : St4 → St4) (left right : F) : F :=
  hash_fields p4 [20, left, right]

/-- Source `hash_spend_leaf` (tag 11). -/
def hash_spend_leaf (p4 : St4 → St4) (in_commit out_commit0 out_commit1
    transfer_token transfer_amount fee_amount : F) : F :=
  hash_fields p4 [11, in_commit, out_commit0, out_commit1,
    transfer_token, transfer_amount, fee_amount]

/-- Source `hash_merge_leaf` (tag 12). -/
def hash_merge_leaf (p4 : St4 → St4) (in_commit0 in_commit1 out_commit : F) : F :=
  hash_fields p4 [12, in_commit0, in_commit1, out_commit]

/-- Source `hash_manifest` (tag 40). -/
def hash_manifest (p4 : St4 → St4) (block_id : Nat) (acceptance_root : F)
    (leaf_hashes_in_order : List F) : F :=
  let leaves_digest := hash_fields p4 leaf_hashes_in_order
  hash_fields p4 [40, block_id % 2 ^ 64, acceptance_root,
    leaf_hashes_in_order.length, leaves_digest]

/-! ### Reference sponge (stated from the spec, for claim C5)

The spec (§4.1) describes the absorb phase as: chunk the input stream by the
rate; whenever a fourth element arrives, add the three buffered elements into
the first three state slots and permute; once the inputs are exhausted, add
the remaining (zero-padded) buffer and permute once more.  The following
definitions restate that description directly as a recursion on the input
list, independent of the imperative cache/counter bookkeeping. -/

/-- Add up to three buffered inputs element-wise into the first three
state slots (missing entries are the zero pad). -/
def addRate (s : St4) : List F → St4
  | [] => s
  | [a] => ⟨fadd s.s0 a, s.s1, s.s2, s.s3⟩
  | [a, b] => ⟨fadd s.s0 a, fadd s.s1 b, s.s2, s.s3⟩
  | a :: b :: c :: _ => ⟨fadd s.s0 a, fadd s.s1 b, fadd s.s2 c, s.s3⟩

/-- Spec-side absorb recursion: while more than three inputs remain, absorb a
full rate-width block and permute; the final (possibly partial, zero-padded)
block is absorbed by the closing permutation. -/
def spongeRounds (p4 : St4 → St4) (s : St4) : List F → St4
  | [] => p4 (addRate s [])
  | [a] => p4 (addRate s [a])
  | [a, b] => p4 (addRate s [a, b])
  | [a, b, c] => p4 (addRate s [a, b, c])
  | a :: b :: c :: d :: rest => spongeRounds p4 (p4 (addRate s [a, b, c])) (d :: rest)

/-- Spec-side restatement of the whole sponge: state `[0,0,0,2^64*len]`,
absorb via `spongeRounds`, squeeze `state[0]`. -/
def hash_fields_spec (p4 : St4 → St4) (inputs : List F) : F :=
  (spongeRounds p4 ⟨0, 0, 0, fmul ((2:Nat) ^ 64) inputs.length⟩ inputs).s0

/-- Loop state corresponding to a buffered prefix `cl` (at most three
elements) on top of sponge state `s`. -/
def mkAbsorb (s : St4) (cl : List F) : AbsorbSt :=
  ⟨s, cl.getD 0 0, cl.getD 1 0, cl.getD 2 0, cl.length⟩

lemma absorb_loop_eq (p4 : St4 → St4) :
    ∀ (rest : List F) (s : St4) (cl : List F), cl.length ≤ 3 →
      p4 (finalAdd (List.foldl (absorbStep p4) (mkAbsorb s cl) rest)) =
        spongeRounds p4 s (cl ++ rest) := by
  intro rest
  induction rest with
  | nil =>
    intro s cl hcl
    match cl, hcl with
    | [], _ => simp [mkAbsorb, finalAdd, addRate, spongeRounds]
    | [a], _ => simp [mkAbsorb, finalAdd, addRate, spongeRounds]
    | [a, b], _ => simp [mkAbsorb, finalAdd, addRate, spongeRounds]
    | [a, b, c], _ => simp [mkAbsorb, finalAdd, addRate, spongeRounds]
  | cons f rest ih =>
    intro s cl hcl
    match cl, hcl with
    | [], _ =>
      have hstep : absorbStep p4 (mkAbsorb s []) f = mkAbsorb s [f] := by
        simp [absorbStep, mkAbsorb]
      rw [List.foldl_cons, hstep]
      exact ih s [f] (by simp)
    | [a], _ =>
      have hstep : absorbStep p4 (mkAbsorb s [a]) f = mkAbsorb s [a, f] := by
        simp [absorbStep, mkAbsorb]
      rw [List.foldl_cons, hstep]
      exact ih s [a, f] (by simp)
    | [a, b], _ =>
      have hstep : absorbStep p4 (mkAbsorb s [a, b]) f = mkAbsorb s [a, b, f] := by
        simp [absorbStep, mkAbsorb]
      rw [List.foldl_cons, hstep]
      exact ih s [a, b, f] (by simp)
    | [a, b, c], _ =>
      have hstep : absorbStep p4 (mkAbsorb s [a, b, c]) f =
          mkAbsorb (p4 (addRate s [a, b, c])) [f] := by
        simp [absorbStep, mkAbsorb, addRate]
      rw [List.foldl_cons, hstep]
      rw [ih (p4 (addRate s [a, b, c])) [f] (by simp)]
      simp [spongeRounds]

/-- A concrete stand-in permutation used to evaluate the hashing pipeline at
concrete inputs (the real permutation is an external backend primitive and is
universally quantified in all general theorems). -/
def p4lin : St4 → St4 := fun s =>
  ⟨fadd (fmul s.s0 ((2:Nat) ^ 32)) (fadd (fmul s.s1 ((2:Nat) ^ 16)) s.s2),
   s.s0, s.s1, fadd s.s3 1⟩

/-- C5: for every list of fields, `hash_fields` equals the reference sponge
definition from the spec — state initialised to `[0,0,0,2^64·len]`, inputs
absorbed rate-3 blockwise with a permutation per full block, the final
zero-padded block absorbed by one closing permutation, and the result read
from `state[0]`. -/
theorem hash_fields_eq_spec (p4 : St4 → St4) (inputs : List F) :
    hash_fields p4 inputs = hash_fields_spec p4 inputs := by
  have h := absorb_loop_eq p4 inputs ⟨0, 0, 0, fmul ((2:Nat) ^ 64) inputs.length⟩ []
    (by simp)
  simp only [List.nil_append] at h
  simp only [hash_fields, hash_fields_spec, ← h, mkAbsorb]
  rfl

/-! ### Batch planner (`batch.rs`) -/

/-- Source `batch.rs::BindingLeaf` (`leaf_id: Vec<u8>` modelled as a byte list). -/
structure BindingLeaf where
  leaf_id : List Nat
  leaf_hash : F
deriving Repr, DecidableEq

/-- Source `batch.rs::BindingBlock`. -/
structure BindingBlock where
  block_id : Nat
  acceptance_root : F
  leaves : List BindingLeaf
  deferred : Option BindingLeaf
deriving Repr, DecidableEq

/-- Source `batch.rs::plan_block`: when the leaf count is odd, `leaves.pop()` moves
the last leaf into `deferred`; the remaining prefix becomes the block. -/
def plan_block (block_id : Nat) (acceptance_root : F)
    (leaves : List BindingLeaf) : BindingBlock :=
  if leaves.length % 2 == 1 then
    ⟨block_id, acceptance_root, leaves.dropLast, leaves.getLast?⟩
  else
    ⟨block_id, acceptance_root, leaves, none⟩

/-- Source `batch.rs::CandidateLeaf` (`publisher_id: [u8; 32]` modelled as the
natural number its 32 bytes encode big-endian, so byte-array lexicographic
comparison coincides with numeric comparison). -/
structure CandidateLeaf where
  leaf_id : List Nat
  leaf_hash : F
  arrival_time_ns : Nat
  publisher_id : Nat
deriving Repr, DecidableEq

/-- Source `batch.rs::field_cmp`: comparison of the 32-byte big-endian encodings,
which for canonical representatives is numeric comparison. -/
def field_cmp (a b : F) : Ordering := compare a b

/-- The comparator of `plan_block_from_candidates`:
`(arrival_time_ns, leaf_hash bytes, publisher_id)` lexicographically. -/
def candCmp (a b : CandidateLeaf) : Ordering :=
  (compare a.arrival_time_ns b.arrival_time_ns).then
    ((field_cmp a.leaf_hash b.leaf_hash).then
      (compare a.publisher_id b.publisher_id))

/-- Rust `sort_by` keeps an element before another exactly when the comparator
does not answer `Greater`; Rust `sort_by` is a stable merge sort. -/
def candLe (a b : CandidateLeaf) : Bool := candCmp a b != Ordering.gt

/-- Source `batch.rs::plan_block_from_candidates`: stable-sort by
`(arrival_time_ns, leaf_hash, publisher_id)`, strip to binding leaves, and
plan the block. -/
def plan_block_from_candidates (block_id : Nat) (acceptance_root : F)
    (candidates : List CandidateLeaf) : BindingBlock :=
  let sorted := candidates.mergeSort candLe
  plan_block block_id acceptance_root
    (sorted.map fun c => ⟨c.leaf_id, c.leaf_hash⟩)

/-- Source `batch.rs::LeafRecord`. -/
inductive LeafRecord where
  | spend (in_commit out_commit0 out_commit1
      transfer_token transfer_amount fee_amount : F)
  | merge (in_commit0 in_commit1 out_commit : F)
deriving Repr, DecidableEq

/-- Source `LeafRecord::recompute_leaf_hash`. -/
def LeafRecord.recompute_leaf_hash (p4 : St4 → St4) : LeafRecord → F
  | .spend a b c d e f => hash_spend_leaf p4 a b c d e f
  | .merge a b c => hash_merge_leaf p4 a b c

/-- Source `LeafRecord::outputs`. -/
def LeafRecord.outputs : LeafRecord → List F
  | .spend _ b c _ _ _ => [b, c]
  | .merge _ _ c => [c]

/-- Source `LeafRecord::inputs`. -/
def LeafRecord.inputs : LeafRecord → List F
  | .spend a _ _ _ _ _ => [a]
  | .merge a b _ => [a, b]

/-- Source `batch.rs::CandidateWithRecord`. -/
structure CandidateWithRecord where
  leaf_id : List Nat
  arrival_time_ns : Nat
  publisher_id : Nat
  record : LeafRecord
  declared_leaf_hash : F
deriving Repr, DecidableEq

/-- Comparator of `validate_and_plan_block`:
`(arrival_time_ns, declared_leaf_hash bytes, publisher_id)`. -/
def candRecCmp (a b : CandidateWithRecord) : Ordering :=
  (compare a.arrival_time_ns b.arrival_time_ns).then
    ((field_cmp a.declared_leaf_hash b.declared_leaf_hash).then
      (compare a.publisher_id b.publisher_id))

/-- Rust `sort_by` predicate for `CandidateWithRecord`. -/
def candRecLe (a b : CandidateWithRecord) : Bool := candRecCmp a b != Ordering.gt

/-- Source `batch.rs::inputs_ok`: every input commitment must be in the membership
oracle or the in-block `produced` set, and absent from `consumed`.
The `HashSet<[u8; 32]>` sets are modelled as lists of canonical field values
queried by membership (`Field::to_bytes` is injective on canonical values). -/
def inputs_ok (mex : F → Bool) (record : LeafRecord)
    (produced consumed : List F) : Bool :=
  record.inputs.all fun inp => (mex inp || produced.contains inp)
    && !(consumed.contains inp)

/-- Running state of the validation loop in `validate_and_plan_block`. -/
structure VState where
  produced : List F
  consumed : List F
  leaves : List BindingLeaf
deriving Repr, DecidableEq

/-- One iteration of the candidate loop in `validate_and_plan_block`:
skip on declared-hash mismatch, skip when `inputs_ok` fails, otherwise
record the inputs as consumed, the outputs as produced, and append the
binding leaf. -/
def vstep (p4 : St4 → St4) (mex : F → Bool) (st : VState)
    (cand : CandidateWithRecord) : VState :=
  if cand.record.recompute_leaf_hash p4 != cand.declared_leaf_hash then st
  else if !(inputs_ok mex cand.record st.produced st.consumed) then st
  else ⟨st.produced ++ cand.record.outputs,
        st.consumed ++ cand.record.inputs,
        st.leaves ++ [⟨cand.leaf_id, cand.declared_leaf_hash⟩]⟩

/-- Source `batch.rs::validate_and_plan_block`. -/
def validate_and_plan_block (p4 : St4 → St4) (block_id : Nat)
    (acceptance_root : F) (candidates : List CandidateWithRecord)
    (mex : F → Bool) : BindingBlock :=
  let sorted := candidates.mergeSort candRecLe
  let final := sorted.foldl (vstep p4 mex) ⟨[], [], []⟩
  plan_block block_id acceptance_root final.leaves

/-- One folding level of `canonical_root_even`: `chunks_exact(2)` combines
adjacent pairs with `h2`; a trailing element of an odd-length level is not
part of any chunk and is dropped (the `_ => return None` arm of the source
match is unreachable because `chunks_exact(2)` only yields 2-element
chunks). -/
def foldLevel (p4 : St4 → St4) : List F → List F
  | l :: r :: rest => h2 p4 l r :: foldLevel p4 rest
  | _ => []

lemma foldLevel_length (p4 : St4 → St4) :
    ∀ l : List F, (foldLevel p4 l).length = l.length / 2 := by
  intro l
  match l with
  | [] => simp [foldLevel]
  | [x] => simp [foldLevel]
  | a :: b :: rest =>
    have ih := foldLevel_length p4 rest
    simp [foldLevel, ih]
    omega

/-- The `while level.len() > 1` loop of `canonical_root_even`, followed by
`level.first().copied()`. -/
def rootLoop (p4 : St4 → St4) (level : List F) : Option F :=
  if 1 < level.length then rootLoop p4 (foldLevel p4 level) else level.head?
termination_by level.length
decreasing_by
  rw [foldLevel_length]
  omega

/-- Source `batch.rs::canonical_root_even`. -/
def canonical_root_even (p4 : St4 → St4) (hashes : List F) : Option F :=
  if hashes.isEmpty || hashes.length % 2 == 1 then none
  else rootLoop p4 hashes

/-! ### Claims C4 and C7 -/

/-- C4: `plan_block` defers the last leaf exactly when the input count is
odd — odd `N` gives `deferred = Some(last)` and the first `N-1` leaves,
even `N` gives `deferred = None` and all `N` leaves — so the `leaves` field
of every returned block has even length. -/
theorem plan_block_parity (bid : Nat) (root : F) (leaves : List BindingLeaf) :
    ((leaves.length % 2 = 1 →
        (plan_block bid root leaves).deferred = leaves.getLast?
        ∧ (plan_block bid root leaves).deferred.isSome = true
        ∧ (plan_block bid root leaves).leaves = leaves.dropLast)
      ∧ (leaves.length % 2 = 0 →
        (plan_block bid root leaves).deferred = none
        ∧ (plan_block bid root leaves).leaves = leaves))
    ∧ (plan_block bid root leaves).leaves.length % 2 = 0 := by
  unfold plan_block
  by_cases h : leaves.length % 2 = 1
  · simp [h]
    refine ⟨?_, ?_⟩
    · cases leaves with
      | nil => simp at h
      | cons a t => simp
    · omega
  · simp [h]
    omega

/-- Witness for C4 at a concrete three-element list. -/
theorem plan_block_parity_witness :
    (plan_block 0 0 [⟨[], 1⟩, ⟨[], 2⟩, ⟨[], 3⟩]).deferred
      = [(⟨[], 1⟩ : BindingLeaf), ⟨[], 2⟩, ⟨[], 3⟩].getLast? :=
  ((plan_block_parity 0 0 [⟨[], 1⟩, ⟨[], 2⟩, ⟨[], 3⟩]).1.1 (by decide)).1

lemma rootLoop_isSome (p4 : St4 → St4) :
    ∀ (n : Nat) (level : List F), level.length ≤ n → level ≠ [] →
      (rootLoop p4 level).isSome = true := by
  intro n
  induction n with
  | zero =>
    intro level hlen hne
    cases level with
    | nil => exact absurd rfl hne
    | cons a t => simp at hlen
  | succ n ih =>
    intro level hlen hne
    rw [rootLoop]
    by_cases h1 : 1 < level.length
    · simp only [h1, if_true]
      apply ih
      · rw [foldLevel_length]; omega
      · intro hcon
        have hl := foldLevel_length p4 level
        rw [hcon] at hl
        simp at hl
        omega
    · simp only [h1, if_false]
      cases level with
      | nil => exact absurd rfl hne
      | cons a t => simp

/-- C7: `canonical_root_even` returns `None` on the empty list and on every
odd-length list, and returns `Some` on every non-empty even-length list
(the inner chunking arm never yields `None` for such inputs). -/
theorem canonical_root_even_domain (p4 : St4 → St4) (hashes : List F) :
    canonical_root_even p4 [] = none
    ∧ (hashes.length % 2 = 1 → canonical_root_even p4 hashes = none)
    ∧ (hashes ≠ [] → hashes.length % 2 = 0 →
        (canonical_root_even p4 hashes).isSome = true) := by
  refine ⟨by simp [canonical_root_even], ?_, ?_⟩
  · intro hodd
    simp [canonical_root_even, hodd]
  · intro hne heven
    unfold canonical_root_even
    have hO : (hashes.length % 2 == 1) = false := by
      simp
      omega
    have hE : hashes.isEmpty = false := by
      simpa using hne
    rw [hE, hO]
    simp
    exact rootLoop_isSome p4 hashes.length hashes le_rfl hne

/-- Witness for C7: a singleton gives `None`, a concrete pair gives `Some`. -/
theorem canonical_root_even_domain_witness :
    canonical_root_even p4lin [5] = none
    ∧ (canonical_root_even p4lin [1, 2]).isSome = true :=
  ⟨(canonical_root_even_domain p4lin [5]).2.1 (by decide),
   (canonical_root_even_domain p4lin [1, 2]).2.2 (by decide) (by decide)⟩

/-! ### Claim C1: the pairwise fold versus the full pairing of the spec

The spec describes `canonical_root_even` as pairing the leaves level by level
"until one value remains", with every input contributing to the root.  The
following definitions state that full-pairing procedure from the spec: a
level pairs up cleanly only when its length is even (`pairLevel`), and the
fold runs a given number of complete levels (`pairLevels`). -/

/-- One complete pairing level: adjacent pairs combined with `h2`; defined
only when the level admits a perfect pairing. -/
def pairLevel (p4 : St4 → St4) : List F → Option (List F)
  | [] => some []
  | [_] => none
  | l :: r :: rest => (pairLevel p4 rest).map fun t => h2 p4 l r :: t

/-- Iterate `k` successive complete pairing levels. -/
def pairLevels (p4 : St4 → St4) : Nat → List F → Option (List F)
  | 0, xs => some xs
  | k + 1, xs => (pairLevel p4 xs).bind (pairLevels p4 k)

lemma pairLevel_of_even (p4 : St4 → St4) :
    ∀ xs : List F, xs.length % 2 = 0 →
      pairLevel p4 xs = some (foldLevel p4 xs) := by
  intro xs
  match xs with
  | [] => intro _; simp [pairLevel, foldLevel]
  | [x] => intro h; simp at h
  | a :: b :: rest =>
    intro h
    have hr : rest.length % 2 = 0 := by
      simp at h
      omega
    have ih := pairLevel_of_even p4 rest hr
    simp [pairLevel, foldLevel, ih]

lemma rootLoop_six (p4 : St4 → St4) (a b c d e f : F) :
    rootLoop p4 [a, b, c, d, e, f]
      = some (h2 p4 (h2 p4 a b) (h2 p4 c d)) := by
  rw [rootLoop]
  simp [foldLevel]
  rw [rootLoop]
  simp [foldLevel]
  rw [rootLoop]
  simp

/-- C1 counterexample: with six leaves the intermediate level has three
nodes and `chunks_exact(2)` drops the third, so the last two leaves do not
contribute to the returned root — two lists differing exactly there yield
the same root even though `h2` distinguishes the dropped pairs. -/
theorem canonical_root_even_counterexample :
    canonical_root_even p4lin [1, 2, 3, 4, 5, 6]
        = canonical_root_even p4lin [1, 2, 3, 4, 7, 8]
      ∧ h2 p4lin 5 6 ≠ h2 p4lin 7 8 := by
  constructor
  · unfold canonical_root_even
    simp
    rw [rootLoop_six, rootLoop_six]
  · decide

/-- C1 (amended): for a list of `2^(k+1)` leaf hashes the full pairing
procedure of the spec runs exactly `k+1` complete levels — no level ever
drops a node — ends with exactly one value, and `canonical_root_even`
returns precisely that value. -/
theorem canonical_root_even_pow2 (p4 : St4 → St4) (k : Nat) :
    ∀ xs : List F, xs.length = 2 ^ (k + 1) →
      ∃ root, pairLevels p4 (k + 1) xs = some [root]
        ∧ canonical_root_even p4 xs = some root := by
  induction k with
  | zero =>
    intro xs hlen
    have h2' : xs.length = 2 := hlen
    obtain ⟨a, b, rfl⟩ := List.length_eq_two.mp h2'
    refine ⟨h2 p4 a b, ?_, ?_⟩
    · simp [pairLevels, pairLevel]
    · unfold canonical_root_even
      simp
      rw [rootLoop]
      simp [foldLevel]
      rw [rootLoop]
      simp
  | succ k ih =>
    intro xs hlen
    have heven : xs.length % 2 = 0 := by
      rw [hlen, Nat.pow_succ]
      omega
    have hfl : (foldLevel p4 xs).length = 2 ^ (k + 1) := by
      rw [foldLevel_length, hlen, Nat.pow_succ]
      omega
    obtain ⟨root, hpl, hcr⟩ := ih (foldLevel p4 xs) hfl
    have hgt1 : 1 < xs.length := by
      rw [hlen]
      exact Nat.one_lt_two_pow_iff.mpr (by omega)
    have hne : xs ≠ [] := by
      intro hcon
      rw [hcon] at hgt1
      simp at hgt1
    refine ⟨root, ?_, ?_⟩
    · show (pairLevel p4 xs).bind (pairLevels p4 (k + 1)) = some [root]
      rw [pairLevel_of_even p4 xs heven]
      simpa using hpl
    · have hfne : foldLevel p4 xs ≠ [] := by
        intro hcon
        rw [hcon] at hfl
        simp at hfl
        exact absurd hfl.symm (Nat.pos_iff_ne_zero.mp (Nat.two_pow_pos (k + 1))).elim
      have hfeven : (foldLevel p4 xs).length % 2 = 0 := by
        rw [hfl, Nat.pow_succ]
        omega
      unfold canonical_root_even at hcr ⊢
      have hO : (xs.length % 2 == 1) = false := by
        simp
        omega
      have hE : xs.isEmpty = false := by simpa using hne
      have hfO : ((foldLevel p4 xs).length % 2 == 1) = false := by
        simp
        omega
      have hfE : (foldLevel p4 xs).isEmpty = false := by simpa using hfne
      rw [hE, hO] at *
      rw [hfE, hfO] at hcr
      simp at hcr ⊢
      rw [rootLoop]
      simp only [hgt1, if_true]
      exact hcr

/-- Witness for the amended C1 at the concrete pair `[1, 2]`. -/
theorem canonical_root_even_pow2_witness :
    ∃ root, pairLevels p4lin 1 [1, 2] = some [root]
      ∧ canonical_root_even p4lin [1, 2] = some root :=
  canonical_root_even_pow2 p4lin 0 [1, 2] (by decide)

/-! ### Claim C8: ordering determinism -/

/-- Strict lexicographic order on sort-key triples. -/
def lexLt3 (x y : Nat × Nat × Nat) : Prop :=
  x.1 < y.1 ∨ (x.1 = y.1 ∧ (x.2.1 < y.2.1 ∨ (x.2.1 = y.2.1 ∧ x.2.2 < y.2.2)))

/-- The sort key of `plan_block_from_candidates`. -/
def candKey (c : CandidateLeaf) : Nat × Nat × Nat :=
  (c.arrival_time_ns, c.leaf_hash, c.publisher_id)

/-- The sort key of `validate_and_plan_block`. -/
def candRecKey (c : CandidateWithRecord) : Nat × Nat × Nat :=
  (c.arrival_time_ns, c.declared_leaf_hash, c.publisher_id)

lemma lt_bne_gt : (Ordering.lt != Ordering.gt) = true := rfl

lemma eq_bne_gt : (Ordering.eq != Ordering.gt) = true := rfl

lemma gt_bne_gt : (Ordering.gt != Ordering.gt) = false := rfl

lemma candLe_iff (a b : CandidateLeaf) :
    candLe a b = true ↔ ¬ lexLt3 (candKey b) (candKey a) := by
  unfold candLe candCmp field_cmp candKey lexLt3
  rcases Nat.lt_trichotomy a.arrival_time_ns b.arrival_time_ns with h1 | h1 | h1
  · rw [Nat.compare_eq_lt.mpr h1]
    simp [Ordering.then, lt_bne_gt]
    omega
  · rw [Nat.compare_eq_eq.mpr h1]
    simp only [Ordering.then]
    rcases Nat.lt_trichotomy a.leaf_hash b.leaf_hash with h2 | h2 | h2
    · rw [Nat.compare_eq_lt.mpr h2]
      simp [Ordering.then, lt_bne_gt]
      omega
    · rw [Nat.compare_eq_eq.mpr h2]
      simp only [Ordering.then]
      rcases Nat.lt_trichotomy a.publisher_id b.publisher_id with h3 | h3 | h3
      · rw [Nat.compare_eq_lt.mpr h3]
        simp [lt_bne_gt]
        omega
      · rw [Nat.compare_eq_eq.mpr h3]
        simp [eq_bne_gt]
        omega
      · rw [Nat.compare_eq_gt.mpr h3]
        simp [gt_bne_gt]
        omega
    · rw [Nat.compare_eq_gt.mpr h2]
      simp [Ordering.then, gt_bne_gt]
      omega
  · rw [Nat.compare_eq_gt.mpr h1]
    simp [Ordering.then, gt_bne_gt]
    omega

lemma candRecLe_iff (a b : CandidateWithRecord) :
    candRecLe a b = true ↔ ¬ lexLt3 (candRecKey b) (candRecKey a) := by
  unfold candRecLe candRecCmp field_cmp candRecKey lexLt3
  rcases Nat.lt_trichotomy a.arrival_time_ns b.arrival_time_ns with h1 | h1 | h1
  · rw [Nat.compare_eq_lt.mpr h1]
    simp [Ordering.then, lt_bne_gt]
    omega
  · rw [Nat.compare_eq_eq.mpr h1]
    simp only [Ordering.then]
    rcases Nat.lt_trichotomy a.declared_leaf_hash b.declared_leaf_hash with h2 | h2 | h2
    · rw [Nat.compare_eq_lt.mpr h2]
      simp [Ordering.then, lt_bne_gt]
      omega
    · rw [Nat.compare_eq_eq.mpr h2]
      simp only [Ordering.then]
      rcases Nat.lt_trichotomy a.publisher_id b.publisher_id with h3 | h3 | h3
      · rw [Nat.compare_eq_lt.mpr h3]
        simp [lt_bne_gt]
        omega
      · rw [Nat.compare_eq_eq.mpr h3]
        simp [eq_bne_gt]
        omega
      · rw [Nat.compare_eq_gt.mpr h3]
        simp [gt_bne_gt]
        omega
    · rw [Nat.compare_eq_gt.mpr h2]
      simp [Ordering.then, gt_bne_gt]
      omega
  · rw [Nat.compare_eq_gt.mpr h1]
    simp [Ordering.then, gt_bne_gt]
    omega

/-- A stable merge sort whose `le` is the negated strict lexicographic
comparison of an injective key function returns the same list on any two
permutations of the same candidates. -/
lemma mergeSort_key_deterministic {α : Type} (le : α → α → Bool)
    (key : α → Nat × Nat × Nat)
    (hiff : ∀ a b, le a b = true ↔ ¬ lexLt3 (key b) (key a))
    {cs1 cs2 : List α} (hperm : cs1.Perm cs2)
    (hinj : cs1.Pairwise fun a b => key a ≠ key b) :
    cs1.mergeSort le = cs2.mergeSort le := by
  have htrans : ∀ a b c, le a b = true → le b c = true → le a c = true := by
    intro a b c
    rw [hiff, hiff, hiff]
    simp only [lexLt3]
    omega
  have htotal : ∀ a b, (le a b || le b a) = true := by
    intro a b
    rw [Bool.or_eq_true, hiff, hiff]
    simp only [lexLt3]
    omega
  have hs1 := List.sorted_mergeSort htrans htotal cs1
  have hs2 := List.sorted_mergeSort htrans htotal cs2
  have hp1 := List.mergeSort_perm cs1 le
  have hp2 := List.mergeSort_perm cs2 le
  have hperm12 : (cs1.mergeSort le).Perm (cs2.mergeSort le) :=
    hp1.trans (hperm.trans hp2.symm)
  have hne_symm : ∀ {x y : α}, key x ≠ key y → key y ≠ key x :=
    fun hxy h => hxy h.symm
  have hinj1 : (cs1.mergeSort le).Pairwise (fun a b => key a ≠ key b) :=
    (hp1.pairwise_iff hne_symm).mpr hinj
  have hinj2 : (cs2.mergeSort le).Pairwise (fun a b => key a ≠ key b) :=
    (hp2.pairwise_iff hne_symm).mpr ((hperm.pairwise_iff hne_symm).mp hinj)
  have hstrict : ∀ {a b : α}, le a b = true ∧ key a ≠ key b →
      lexLt3 (key a) (key b) := by
    intro a b hab
    obtain ⟨hab, hne⟩ := hab
    rw [hiff] at hab
    have hne3 : ¬((key a).1 = (key b).1 ∧ (key a).2.1 = (key b).2.1
        ∧ (key a).2.2 = (key b).2.2) := by
      intro hcon
      exact hne (Prod.ext hcon.1 (Prod.ext hcon.2.1 hcon.2.2))
    simp only [lexLt3] at *
    omega
  have hsort1 : (cs1.mergeSort le).Pairwise (fun a b => lexLt3 (key a) (key b)) :=
    (hs1.and hinj1).imp hstrict
  have hsort2 : (cs2.mergeSort le).Pairwise (fun a b => lexLt3 (key a) (key b)) :=
    (hs2.and hinj2).imp hstrict
  haveI : IsAntisymm α (fun a b => lexLt3 (key a) (key b)) := by
    refine ⟨?_⟩
    intro a b hab hba
    exfalso
    simp only [lexLt3] at hab hba
    omega
  exact List.eq_of_perm_of_sorted hperm12 hsort1 hsort2

lemma candLe_trans : ∀ a b c : CandidateLeaf,
    candLe a b = true → candLe b c = true → candLe a c = true := by
  intro a b c
  rw [candLe_iff, candLe_iff, candLe_iff]
  simp only [lexLt3]
  omega

lemma candLe_total : ∀ a b : CandidateLeaf, (candLe a b || candLe b a) = true := by
  intro a b
  rw [Bool.or_eq_true, candLe_iff, candLe_iff]
  simp only [lexLt3]
  omega

/-- A stable merge sort leaves a two-element list untouched when the first
element is `le` the second. -/
lemma mergeSort_pair {α : Type} (le : α → α → Bool)
    (htrans : ∀ a b c, le a b = true → le b c = true → le a c = true)
    (htotal : ∀ a b, (le a b || le b a) = true)
    (a b : α) (hab : le a b = true) : [a, b].mergeSort le = [a, b] := by
  obtain ⟨l₁, l₂, h1, h2, h3⟩ := List.mergeSort_cons htrans htotal a [b]
  rw [List.mergeSort_singleton] at h2
  cases l₁ with
  | nil =>
    simp at h2
    rw [h1, h2]
    rfl
  | cons x xs =>
    exfalso
    have hx : x = b := by
      have hh := congrArg (fun l => l.head?) h2
      simp at hh
      exact hh.symm
    have hmem : x ∈ x :: xs := List.mem_cons_self x xs
    have := h3 x hmem
    rw [hx] at this
    rw [hab] at this
    simp at this

/-- First candidate of the C8 counterexample: sort key `(5, 7, 9)`. -/
def candA : CandidateLeaf := ⟨[1], 7, 5, 9⟩

/-- Second candidate of the C8 counterexample: same sort key `(5, 7, 9)`
but a different `leaf_id`. -/
def candB : CandidateLeaf := ⟨[2], 7, 5, 9⟩

/-- C8 counterexample: two distinct candidates with identical sort keys
are kept in input order by the stable sort, so two permutations of the same
multiset of candidates produce different blocks. -/
theorem plan_block_from_candidates_counterexample :
    List.Perm [candA, candB] [candB, candA]
    ∧ plan_block_from_candidates 0 0 [candA, candB]
        ≠ plan_block_from_candidates 0 0 [candB, candA] := by
  constructor
  · exact List.Perm.swap candB candA []
  · have e1 : [candA, candB].mergeSort candLe = [candA, candB] :=
      mergeSort_pair candLe candLe_trans candLe_total candA candB (by decide)
    have e2 : [candB, candA].mergeSort candLe = [candB, candA] :=
      mergeSort_pair candLe candLe_trans candLe_total candB candA (by decide)
    unfold plan_block_from_candidates
    rw [e1, e2]
    decide

/-- C8 (amended): the planner sorts by the total lexicographic order
`(arrival_time_ns, leaf-hash bytes, publisher_id)`, and provided no two
distinct candidates share that full sort key, the resulting block is
identical for any two permutations of the candidate list — both for
`plan_block_from_candidates` and for the ordering step of
`validate_and_plan_block`. -/
theorem plan_block_from_candidates_deterministic (p4 : St4 → St4)
    (bid : Nat) (root : F) (mex : F → Bool)
    (cs1 cs2 : List CandidateLeaf) (ds1 ds2 : List CandidateWithRecord)
    (hc : cs1.Perm cs2) (hck : cs1.Pairwise fun a b => candKey a ≠ candKey b)
    (hd : ds1.Perm ds2)
    (hdk : ds1.Pairwise fun a b => candRecKey a ≠ candRecKey b) :
    plan_block_from_candidates bid root cs1 = plan_block_from_candidates bid root cs2
    ∧ validate_and_plan_block p4 bid root ds1 mex
        = validate_and_plan_block p4 bid root ds2 mex := by
  constructor
  · unfold plan_block_from_candidates
    rw [mergeSort_key_deterministic candLe candKey candLe_iff hc hck]
  · unfold validate_and_plan_block
    rw [mergeSort_key_deterministic candRecLe candRecKey candRecLe_iff hd hdk]

/-- Witness for the amended C8: two candidates with distinct keys given in
both orders yield the same block. -/
theorem plan_block_from_candidates_deterministic_witness :
    plan_block_from_candidates 0 0 [⟨[1], 7, 5, 9⟩, ⟨[2], 8, 5, 9⟩]
      = plan_block_from_candidates 0 0 [⟨[2], 8, 5, 9⟩, ⟨[1], 7, 5, 9⟩] :=
  (plan_block_from_candidates_deterministic p4lin 0 0 (fun _ => false)
    [⟨[1], 7, 5, 9⟩, ⟨[2], 8, 5, 9⟩] [⟨[2], 8, 5, 9⟩, ⟨[1], 7, 5, 9⟩] [] []
    (List.Perm.swap _ _ []) (by simp [candKey]) (List.Perm.nil) (by simp)).1

/-! ### Domain types (`types.rs`) -/

/-- Source `types.rs::Asset`. -/
structure Asset where
  token : F
  amount : F

/-- Source `Asset::empty`. -/
def Asset.empty : Asset := ⟨0, 0⟩

/-- Source `types.rs::Utxo` (`assets: [Asset; 4]` modelled as a function on `Fin 4`). -/
structure Utxo where
  assets : Fin 4 → Asset
  recipient_pk_x : F
  salt : F

/-- Source `Utxo::commitment`: `hash10` over the ten scalars. -/
def Utxo.commitment (p4 : St4 → St4) (u : Utxo) : F :=
  hash10 p4 [u.recipient_pk_x,
    (u.assets 0).token, (u.assets 0).amount,
    (u.assets 1).token, (u.assets 1).amount,
    (u.assets 2).token, (u.assets 2).amount,
    (u.assets 3).token, (u.assets 3).amount,
    u.salt]

/-- Source `types.rs::SchnorrPublicKey` (each 32-byte coordinate modelled as the
natural number it encodes big-endian). -/
structure SchnorrPublicKey where
  pk_x : Nat
  pk_y : Nat
deriving Repr, DecidableEq

/-- Source `SchnorrPublicKey::pk_x_field` (`Field::from_bytes` of the raw bytes). -/
def SchnorrPublicKey.pk_x_field (k : SchnorrPublicKey) : F := k.pk_x

/-- Source `types.rs::SpendInput`. -/
structure SpendInput where
  utxo : Utxo
  signer : SchnorrPublicKey

/-- Source `types.rs::MergeInput`. -/
structure MergeInput where
  utxo : Utxo
  signer : SchnorrPublicKey

/-- Source `types.rs::TransactionOutput`, the tagged union shared by both
transaction kinds. -/
inductive TransactionOutput where
  | spend (receiver remainder : Utxo)
  | merge (utxo : Utxo)

/-- Source `types.rs::SpendTx` (`expected_out_commits: [Field; 2]` as a pair,
byte blobs as byte lists / numbers). -/
structure SpendTx where
  input : SpendInput
  outputs : TransactionOutput
  expected_out_commits : F × F
  proof : List Nat
  transfer_token : F
  transfer_amount : F
  fee_amount : F
  signature : List Nat
  msg32 : Nat
  digest : F

/-- Source `SpendTx::leaf_hash`: matches on the shared `outputs` union; the
`Merge` arm is the `unreachable!` panic of the source, modelled as `none`. -/
def SpendTx.leaf_hash (p4 : St4 → St4) (tx : SpendTx) : Option F :=
  match tx.outputs with
  | .spend _ _ => some (hash_spend_leaf p4 (tx.input.utxo.commitment p4)
      tx.expected_out_commits.1 tx.expected_out_commits.2
      tx.transfer_token tx.transfer_amount tx.fee_amount)
  | .merge _ => none

/-- Source `types.rs::MergeTx` (`inputs: [MergeInput; 2]` as a function on `Fin 2`). -/
structure MergeTx where
  inputs : Fin 2 → MergeInput
  outputs : TransactionOutput
  expected_out_commit : F
  proof : List Nat
  signature : List Nat
  msg32 : Nat
  digest : F

/-- Source `MergeTx::leaf_hash`: the `Spend` arm is the `unreachable!`
panic of the source, modelled as `none`. -/
def MergeTx.leaf_hash (p4 : St4 → St4) (tx : MergeTx) : Option F :=
  match tx.outputs with
  | .merge _ => some (hash_merge_leaf p4 ((tx.inputs 0).utxo.commitment p4)
      ((tx.inputs 1).utxo.commitment p4) tx.expected_out_commit)
  | .spend _ _ => none

/-- C10: `leaf_hash` is total exactly on the matching output variant — a
`SpendTx` holding the `Spend` variant yields the canonical spend leaf hash,
a `MergeTx` holding the `Merge` variant yields the canonical merge leaf
hash, and holding the mismatched variant reaches the panicking
(`unreachable!`) arm, modelled as `none`. -/
theorem leaf_hash_total_on_variant (p4 : St4 → St4) (stx : SpendTx) (mtx : MergeTx) :
    ((stx.leaf_hash p4).isSome = true ↔ ∃ r m, stx.outputs = TransactionOutput.spend r m)
    ∧ (∀ r m, stx.outputs = TransactionOutput.spend r m →
        stx.leaf_hash p4 = some (hash_spend_leaf p4 (stx.input.utxo.commitment p4)
          stx.expected_out_commits.1 stx.expected_out_commits.2
          stx.transfer_token stx.transfer_amount stx.fee_amount))
    ∧ ((mtx.leaf_hash p4).isSome = true ↔ ∃ u, mtx.outputs = TransactionOutput.merge u)
    ∧ (∀ u, mtx.outputs = TransactionOutput.merge u →
        mtx.leaf_hash p4 = some (hash_merge_leaf p4 ((mtx.inputs 0).utxo.commitment p4)
          ((mtx.inputs 1).utxo.commitment p4) mtx.expected_out_commit)) := by
  refine ⟨?_, ?_, ?_, ?_⟩
  · unfold SpendTx.leaf_hash
    cases houts : stx.outputs with
    | spend r m => simp
    | merge u => simp
  · intro r m houts
    unfold SpendTx.leaf_hash
    rw [houts]
  · unfold MergeTx.leaf_hash
    cases houts : mtx.outputs with
    | spend r m => simp
    | merge u => simp
  · intro u houts
    unfold MergeTx.leaf_hash
    rw [houts]

/-- A fixed concrete UTXO used by witnesses. -/
def utxoW : Utxo := ⟨fun _ => ⟨1, 10⟩, 3, 4⟩

/-- Witness for C10: a well-formed spend transaction value evaluates to the
canonical spend leaf hash. -/
theorem leaf_hash_total_on_variant_witness :
    SpendTx.leaf_hash p4lin
        ⟨⟨utxoW, ⟨3, 5⟩⟩, TransactionOutput.spend utxoW utxoW, (7, 8), [], 1, 2, 3, [], 0, 0⟩
      = some (hash_spend_leaf p4lin (Utxo.commitment p4lin utxoW) 7 8 1 2 3) :=
  (leaf_hash_total_on_variant p4lin
      ⟨⟨utxoW, ⟨3, 5⟩⟩, TransactionOutput.spend utxoW utxoW, (7, 8), [], 1, 2, 3, [], 0, 0⟩
      ⟨fun _ => ⟨utxoW, ⟨3, 5⟩⟩, TransactionOutput.merge utxoW, 7, [], [], 0, 0⟩).2.1
    utxoW utxoW rfl

/-! ### Transaction builder (`tx.rs`): the deterministic prefix of
`prove_spend` — signer checks, transfer-slot location, remainder amounts.
The salt sampling, ABI packing, and proving backend calls that follow are
external effects and are not part of the embedded prefix. -/

/-- Error cases of the embedded `prove_spend` prefix, one per
`ensure!`/`bail!` site in source order. -/
inductive SpendErr where
  | signerMismatch
  | recipientMismatch
  | duplicateTransferToken
  | transferTokenNotFound
  | insufficientFundsTransferAndFee
  | insufficientFundsTransfer
  | insufficientFundsFee
deriving Repr, DecidableEq

/-- One iteration of the transfer-slot search loop: a second matching slot
is the `bail!("duplicate transfer token slots detected")` site. -/
def slotStep (tok : Fin 4 → F) (t : F) (acc : Option (Fin 4)) (idx : Fin 4) :
    Except SpendErr (Option (Fin 4)) :=
  if tok idx == t then
    match acc with
    | some _ => .error .duplicateTransferToken
    | none => .ok (some idx)
  else .ok acc

/-- The `for (idx, token) in in_tokens.iter().enumerate()` search unrolled
over the four asset slots, with `bail!` modelled as error propagation. -/
def slotScan (tok : Fin 4 → F) (t : F) : Except SpendErr (Option (Fin 4)) :=
  match slotStep tok t none 0 with
  | .error e => .error e
  | .ok a1 =>
    match slotStep tok t a1 1 with
    | .error e => .error e
    | .ok a2 =>
      match slotStep tok t a2 2 with
      | .error e => .error e
      | .ok a3 => slotStep tok t a3 3

/-- Result of the deterministic prefix of `prove_spend`: the located slot
plus the receiver/remainder token and amount arrays. -/
structure SpendPlan where
  transfer_slot : Fin 4
  receiver_tokens : Fin 4 → F
  receiver_amounts : Fin 4 → F
  remainder_tokens : Fin 4 → F
  remainder_amounts : Fin 4 → F

/-- The precomputed `in_tokens` array of `prove_spend`. -/
def spendTokens (input : SpendInput) : Fin 4 → F :=
  fun i => (input.utxo.assets i).token

/-- The precomputed `in_amounts` array of `prove_spend`. -/
def spendAmounts (input : SpendInput) : Fin 4 → F :=
  fun i => (input.utxo.assets i).amount

/-- The remainder-amount computation of `prove_spend` after the transfer
slot has been located: slot 0 pays transfer and fee together, any other
slot pays the transfer while slot 0 pays the fee, each `ensure!` guard
checked independently in source order.  `>=` is `bb_fr_cmp` on canonical
values and `+`/`-` are field operations. -/
def spend_remainder_stage (in_tokens in_amounts : Fin 4 → F) (transfer_slot : Fin 4)
    (transfer_token transfer_amount fee_amount : F) : Except SpendErr SpendPlan :=
  let receiver_tokens : Fin 4 → F :=
    fun i => if i = transfer_slot then transfer_token else 0
  let receiver_amounts : Fin 4 → F :=
    fun i => if i = transfer_slot then transfer_amount else 0
  if transfer_slot = 0 then
    if fle (fadd transfer_amount fee_amount) (in_amounts 0) then
      .ok ⟨transfer_slot, receiver_tokens, receiver_amounts, in_tokens,
        fun i => if i = 0 then
          fsub (fsub (in_amounts 0) transfer_amount) fee_amount
        else in_amounts i⟩
    else .error .insufficientFundsTransferAndFee
  else
    if fle transfer_amount (in_amounts transfer_slot) then
      if fle fee_amount (in_amounts 0) then
        .ok ⟨transfer_slot, receiver_tokens, receiver_amounts, in_tokens,
          fun i => if i = 0 then fsub (in_amounts 0) fee_amount
            else if i = transfer_slot then
              fsub (in_amounts transfer_slot) transfer_amount
            else in_amounts i⟩
      else .error .insufficientFundsFee
    else .error .insufficientFundsTransfer

/-- The deterministic prefix of `tx.rs::prove_spend`: signer-key checks,
unique transfer-slot location, and the remainder stage, in source order. -/
def prove_spend_plan (signer_pk : SchnorrPublicKey) (input : SpendInput)
    (transfer_token transfer_amount fee_amount : F) : Except SpendErr SpendPlan :=
  if signer_pk.pk_x ≠ input.signer.pk_x ∨ signer_pk.pk_y ≠ input.signer.pk_y then
    .error .signerMismatch
  else if input.utxo.recipient_pk_x ≠ input.signer.pk_x_field then
    .error .recipientMismatch
  else
    match slotScan (spendTokens input) transfer_token with
    | .error e => .error e
    | .ok none => .error .transferTokenNotFound
    | .ok (some transfer_slot) =>
      spend_remainder_stage (spendTokens input) (spendAmounts input)
        transfer_slot transfer_token transfer_amount fee_amount

/-- The filtered list of asset slots whose token equals the transfer token. -/
def tokenMatches (input : SpendInput) (t : F) : List (Fin 4) :=
  List.filter (fun i => spendTokens input i == t) [0, 1, 2, 3]

lemma slotScan_spec (tok : Fin 4 → F) (t : F) :
    ((∀ i, tok i ≠ t) → slotScan tok t = .ok none)
    ∧ (∀ s, (∀ i, tok i = t ↔ i = s) → slotScan tok t = .ok (some s))
    ∧ (∀ i j, i < j → tok i = t → tok j = t →
        slotScan tok t = .error .duplicateTransferToken) := by
  refine ⟨fun hn => ?_, fun s hs => ?_, fun i j hij hi hj => ?_⟩
  · simp [slotScan, slotStep, hn 0, hn 1, hn 2, hn 3]
  · have h0 := hs 0
    have h1 := hs 1
    have h2 := hs 2
    have h3 := hs 3
    fin_cases s <;> simp_all [slotScan, slotStep]
  · by_cases h0 : tok 0 = t <;> by_cases h1 : tok 1 = t <;>
      by_cases h2 : tok 2 = t <;> by_cases h3 : tok 3 = t <;>
      fin_cases i <;> fin_cases j <;> simp_all [slotScan, slotStep]

lemma spend_remainder_stage_no_slot_errors (tk am : Fin 4 → F) (s : Fin 4)
    (t ta fa : F) :
    spend_remainder_stage tk am s t ta fa ≠ .error .transferTokenNotFound
    ∧ spend_remainder_stage tk am s t ta fa ≠ .error .duplicateTransferToken := by
  unfold spend_remainder_stage
  split_ifs <;> simp

lemma prove_spend_plan_proceeds (signer_pk : SchnorrPublicKey) (input : SpendInput)
    (t ta fa : F) (s : Fin 4)
    (hkx : signer_pk.pk_x = input.signer.pk_x)
    (hky : signer_pk.pk_y = input.signer.pk_y)
    (hr : input.utxo.recipient_pk_x = input.signer.pk_x_field)
    (hscan : slotScan (spendTokens input) t = .ok (some s)) :
    prove_spend_plan signer_pk input t ta fa
      = spend_remainder_stage (spendTokens input) (spendAmounts input) s t ta fa := by
  unfold prove_spend_plan
  simp [hkx, hky, hr, hscan]

/-- C9: for every input UTXO and transfer token, `prove_spend` locates the
unique asset slot holding the transfer token: it fails with the
not-present validation error when no slot matches, fails with the
duplicate-slot validation error when two slots match, and proceeds to the
remainder stage exactly when the match is unique. -/
theorem prove_spend_slot_unique (signer_pk : SchnorrPublicKey) (input : SpendInput)
    (t ta fa : F)
    (hkx : signer_pk.pk_x = input.signer.pk_x)
    (hky : signer_pk.pk_y = input.signer.pk_y)
    (hr : input.utxo.recipient_pk_x = input.signer.pk_x_field) :
    ((∀ i, spendTokens input i ≠ t) →
      prove_spend_plan signer_pk input t ta fa = .error .transferTokenNotFound)
    ∧ (∀ i j, i < j → spendTokens input i = t → spendTokens input j = t →
      prove_spend_plan signer_pk input t ta fa = .error .duplicateTransferToken)
    ∧ (∀ s, (∀ i, spendTokens input i = t ↔ i = s) →
      spendTokens input s = t
      ∧ slotScan (spendTokens input) t = .ok (some s)
      ∧ prove_spend_plan signer_pk input t ta fa
          = spend_remainder_stage (spendTokens input) (spendAmounts input) s t ta fa
      ∧ prove_spend_plan signer_pk input t ta fa ≠ .error .transferTokenNotFound
      ∧ prove_spend_plan signer_pk input t ta fa ≠ .error .duplicateTransferToken) := by
  obtain ⟨hnone, huniq, hdup⟩ := slotScan_spec (spendTokens input) t
  refine ⟨fun hn => ?_, fun i j hij hi hj => ?_, fun s hs => ?_⟩
  · unfold prove_spend_plan
    simp [hkx, hky, hr, hnone hn]
  · unfold prove_spend_plan
    simp [hkx, hky, hr, hdup i j hij hi hj]
  · have hscan := huniq s hs
    have hproc := prove_spend_plan_proceeds signer_pk input t ta fa s hkx hky hr hscan
    obtain ⟨he1, he2⟩ := spend_remainder_stage_no_slot_errors
      (spendTokens input) (spendAmounts input) s t ta fa
    refine ⟨(hs s).mpr rfl, hscan, hproc, ?_, ?_⟩
    · rw [hproc]
      exact he1
    · rw [hproc]
      exact he2

/-- Concrete input UTXO for the C9 witness: no slot carries token 5. -/
def utxoN : Utxo := ⟨fun _ => ⟨0, 0⟩, 9, 4⟩

/-- Witness for C9: a transfer token absent from all four slots fails with
the not-present validation error. -/
theorem prove_spend_slot_unique_witness :
    prove_spend_plan ⟨9, 11⟩ ⟨utxoN, ⟨9, 11⟩⟩ 5 40 2
      = .error .transferTokenNotFound :=
  (prove_spend_slot_unique ⟨9, 11⟩ ⟨utxoN, ⟨9, 11⟩⟩ 5 40 2 rfl rfl rfl).1
    (by decide)

/-- C6: once the transfer slot is located, the remainder amounts follow the
claim: slot 0 pays transfer and fee together (fail when
`in0 < transfer + fee`); a nonzero slot pays the transfer while slot 0 pays
the fee, each checked independently, untouched slots keeping their input
amounts. -/
theorem prove_spend_remainders (signer_pk : SchnorrPublicKey) (input : SpendInput)
    (t ta fa : F) (s : Fin 4)
    (hkx : signer_pk.pk_x = input.signer.pk_x)
    (hky : signer_pk.pk_y = input.signer.pk_y)
    (hr : input.utxo.recipient_pk_x = input.signer.pk_x_field)
    (hs : ∀ i, spendTokens input i = t ↔ i = s) :
    (s = 0 →
      (fle (fadd ta fa) (spendAmounts input 0) = true →
        ∃ plan, prove_spend_plan signer_pk input t ta fa = .ok plan
          ∧ plan.transfer_slot = 0
          ∧ plan.remainder_amounts 0 = fsub (fsub (spendAmounts input 0) ta) fa
          ∧ (∀ i, i ≠ 0 → plan.remainder_amounts i = spendAmounts input i))
      ∧ (fle (fadd ta fa) (spendAmounts input 0) = false →
        prove_spend_plan signer_pk input t ta fa
          = .error .insufficientFundsTransferAndFee))
    ∧ (s ≠ 0 →
      (fle ta (spendAmounts input s) = false →
        prove_spend_plan signer_pk input t ta fa
          = .error .insufficientFundsTransfer)
      ∧ (fle ta (spendAmounts input s) = true →
          fle fa (spendAmounts input 0) = false →
        prove_spend_plan signer_pk input t ta fa = .error .insufficientFundsFee)
      ∧ (fle ta (spendAmounts input s) = true →
          fle fa (spendAmounts input 0) = true →
        ∃ plan, prove_spend_plan signer_pk input t ta fa = .ok plan
          ∧ plan.transfer_slot = s
          ∧ plan.remainder_amounts s = fsub (spendAmounts input s) ta
          ∧ plan.remainder_amounts 0 = fsub (spendAmounts input 0) fa
          ∧ (∀ i, i ≠ 0 → i ≠ s → plan.remainder_amounts i = spendAmounts input i))) := by
  have hscan := (slotScan_spec (spendTokens input) t).2.1 s hs
  have hproc := prove_spend_plan_proceeds signer_pk input t ta fa s hkx hky hr hscan
  constructor
  · intro hs0
    subst hs0
    constructor
    · intro hfle
      rw [hproc]
      unfold spend_remainder_stage
      simp only [if_pos rfl, hfle, if_true]
      refine ⟨_, rfl, rfl, by simp, ?_⟩
      intro i hi
      simp [hi]
    · intro hfle
      rw [hproc]
      unfold spend_remainder_stage
      simp [hfle]
  · intro hsne
    refine ⟨fun hta => ?_, fun hta hfa => ?_, fun hta hfa => ?_⟩
    · rw [hproc]
      unfold spend_remainder_stage
      simp [hsne, hta]
    · rw [hproc]
      unfold spend_remainder_stage
      simp [hsne, hta, hfa]
    · rw [hproc]
      unfold spend_remainder_stage
      simp only [if_neg hsne, hta, hfa, if_true]
      refine ⟨_, rfl, rfl, ?_, ?_, ?_⟩
      · simp [hsne]
      · simp
      · intro i hi0 his
        simp [hi0, his]

/-- Concrete input UTXO for the C6 witness: slot 0 carries 100 units of
token 5 (spec scenario B). -/
def utxoB : Utxo := ⟨fun i => if i = 0 then ⟨5, 100⟩ else ⟨0, 0⟩, 9, 4⟩

/-- The same UTXO with only 41 units in slot 0. -/
def utxoB41 : Utxo := ⟨fun i => if i = 0 then ⟨5, 41⟩ else ⟨0, 0⟩, 9, 4⟩

/-- Witness for C6 at spec scenario B: amount 100, transfer 40, fee 2 in
slot 0 gives remainder 58; amount 41 fails with insufficient funds. -/
theorem prove_spend_remainders_witness :
    (∃ plan, prove_spend_plan ⟨9, 11⟩ ⟨utxoB, ⟨9, 11⟩⟩ 5 40 2 = .ok plan
      ∧ plan.remainder_amounts 0 = 58)
    ∧ prove_spend_plan ⟨9, 11⟩ ⟨utxoB41, ⟨9, 11⟩⟩ 5 40 2
        = .error .insufficientFundsTransferAndFee := by
  constructor
  · obtain ⟨plan, hok, hslot, hrem, hrest⟩ :=
      ((prove_spend_remainders ⟨9, 11⟩ ⟨utxoB, ⟨9, 11⟩⟩ 5 40 2 0
        rfl rfl rfl (by decide)).1 rfl).1 (by decide)
    refine ⟨plan, hok, ?_⟩
    rw [hrem]
    decide
  · exact ((prove_spend_remainders ⟨9, 11⟩ ⟨utxoB41, ⟨9, 11⟩⟩ 5 40 2 0
      rfl rfl rfl (by decide)).1 rfl).2 (by decide)


/-! ### Circuit catalog (`catalog.rs`) -/

/-- Source `catalog.rs::AbiType`. -/
inductive AbiType where
  | field
  | array (length : Nat) (elem : AbiType)
  | integer (sign : String) (width : Nat)
  | boolean
  | struct (fields : List (String × AbiType))

/-- Source `catalog.rs::AbiParam`. -/
structure AbiParam where
  name : String
  abi_type : AbiType
  visibility : String

/-- Source `catalog.rs::AbiReturn`. -/
structure AbiReturn where
  abi_type : AbiType
  visibility : String

/-- Source `catalog.rs::Abi`. -/
structure Abi where
  parameters : List AbiParam
  return_type : Option AbiReturn

/-- Source `catalog.rs::CircuitEntry` (byte blobs as byte lists, 32-byte ids as
the natural numbers they encode). -/
structure CircuitEntry where
  name : String
  acir : List Nat
  vk : List Nat
  abi : Abi
  key_id : Nat
  vk_hash : Option Nat

/-- The `get_mut` body of `update_vk`: replace `vk` when empty or changed,
replace `vk_hash` when changed, replace `key_id` only when one is passed. -/
def updateEntry (e : CircuitEntry) (vk : List Nat) (vk_hash : Option Nat)
    (key_id : Option Nat) : CircuitEntry :=
  let e1 := if e.vk = [] ∨ e.vk ≠ vk then { e with vk := vk } else e
  let e2 := if e1.vk_hash ≠ vk_hash then { e1 with vk_hash := vk_hash } else e1
  match key_id with
  | some id => { e2 with key_id := id }
  | none => e2

/-- Source `catalog.rs::update_vk`: the `HashMap<String, CircuitEntry>` cache is
modelled as an association list with unique names; `get_mut(name)` becomes
an update of the matching association. -/
def update_vk (cache : List (String × CircuitEntry)) (name : String)
    (vk : List Nat) (vk_hash : Option Nat) (key_id : Option Nat) :
    List (String × CircuitEntry) :=
  cache.map fun p =>
    if p.1 = name then (p.1, updateEntry p.2 vk vk_hash key_id) else p

/-- Source `catalog.rs::get` on the modelled cache. -/
def getEntry (cache : List (String × CircuitEntry)) (name : String) :
    Option CircuitEntry :=
  (cache.find? fun p => p.1 == name).map Prod.snd

/-- An empty ABI used by concrete catalog examples. -/
def abiEmpty : Abi := ⟨[], none⟩

/-- A registered entry with a known verifying-key hash, for the C3
counterexample. -/
def entryC : CircuitEntry := ⟨"c", [], [1], abiEmpty, 7, some 5⟩

/-- C3 counterexample: the stored entry has `vk_hash = Some 5`; calling
`update_vk` with `vk_hash = None` (and `key_id = None`) discards the
previously known hash — the entry afterwards has `vk_hash = None`, while
`key_id` is indeed preserved. -/
theorem update_vk_counterexample :
    entryC.vk_hash = some 5
    ∧ ((getEntry (update_vk [("c", entryC)] "c" [1] none none) "c").map
        fun e => e.vk_hash) = some none
    ∧ ((getEntry (update_vk [("c", entryC)] "c" [1] none none) "c").map
        fun e => e.key_id) = some 7 := by
  refine ⟨rfl, ?_, ?_⟩ <;> rfl

lemma updateEntry_eq (e : CircuitEntry) (vk : List Nat) (vkh : Option Nat)
    (kid : Option Nat) :
    updateEntry e vk vkh kid
      = ⟨e.name, e.acir, vk, e.abi, kid.getD e.key_id, vkh⟩ := by
  obtain ⟨n, ac, v, ab, k, vh⟩ := e
  unfold updateEntry
  cases kid <;> split_ifs <;> simp_all [Option.getD]

/-- C3 (amended): on a registered name, `update_vk` sets `vk` and `vk_hash`
to exactly the passed values — so passing `None` for `vk_hash` does discard
a previously stored hash — while `key_id` keeps its old value when `None`
is passed; entries under other names are untouched and unregistered names
leave the cache unchanged. -/
theorem update_vk_amended (cache : List (String × CircuitEntry)) (name : String)
    (vk : List Nat) (vkh : Option Nat) (kid : Option Nat) :
    update_vk cache name vk vkh kid = cache.map fun p =>
      if p.1 = name then
        (p.1, ⟨p.2.name, p.2.acir, vk, p.2.abi, kid.getD p.2.key_id, vkh⟩)
      else p := by
  unfold update_vk
  apply List.map_congr_left
  intro p _
  by_cases h : p.1 = name
  · simp [h, updateEntry_eq]
  · simp [h]


/-! ### Claim C2: validation invariants of `validate_and_plan_block`

The loop of `validate_and_plan_block` is related to a ghost fold that
keeps the accepted candidates themselves (`accFold`), from which the
claimed invariants are read off position by position. -/

/-- The binding leaf pushed for an accepted candidate. -/
def toBindingLeaf (c : CandidateWithRecord) : BindingLeaf :=
  ⟨c.leaf_id, c.declared_leaf_hash⟩

/-- All output commitments produced by a list of accepted candidates. -/
def histOutputs (hist : List CandidateWithRecord) : List F :=
  hist.flatMap fun h => h.record.outputs

/-- All input commitments consumed by a list of accepted candidates. -/
def histInputs (hist : List CandidateWithRecord) : List F :=
  hist.flatMap fun h => h.record.inputs

/-- The acceptance test of one loop iteration, phrased against the list of
previously accepted candidates: declared hash matches the recomputed one,
and `inputs_ok` holds for the produced/consumed sets of that history. -/
def accepts (p4 : St4 → St4) (mex : F → Bool)
    (hist : List CandidateWithRecord) (c : CandidateWithRecord) : Bool :=
  (c.record.recompute_leaf_hash p4 == c.declared_leaf_hash)
    && inputs_ok mex c.record (histOutputs hist) (histInputs hist)

/-- The validation-loop state determined by an accepted history. -/
def stOf (hist : List CandidateWithRecord) : VState :=
  ⟨histOutputs hist, histInputs hist, hist.map toBindingLeaf⟩

/-- Ghost fold accumulating the accepted candidates themselves. -/
def accFold (p4 : St4 → St4) (mex : F → Bool)
    (hist : List CandidateWithRecord) :
    List CandidateWithRecord → List CandidateWithRecord
  | [] => hist
  | c :: rest =>
    if accepts p4 mex hist c then accFold p4 mex (hist ++ [c]) rest
    else accFold p4 mex hist rest

/-- The candidates accepted by the validation loop, in order. -/
def acceptedRecs (p4 : St4 → St4) (mex : F → Bool)
    (cands : List CandidateWithRecord) : List CandidateWithRecord :=
  accFold p4 mex [] cands

/-- The candidates accepted by `validate_and_plan_block` after its sorting
step. -/
def acceptedBlockRecs (p4 : St4 → St4) (mex : F → Bool)
    (cands : List CandidateWithRecord) : List CandidateWithRecord :=
  acceptedRecs p4 mex (cands.mergeSort candRecLe)

lemma vstep_eq_accepts (p4 : St4 → St4) (mex : F → Bool)
    (hist : List CandidateWithRecord) (c : CandidateWithRecord) :
    vstep p4 mex (stOf hist) c
      = if accepts p4 mex hist c then stOf (hist ++ [c]) else stOf hist := by
  by_cases h1 : c.record.recompute_leaf_hash p4 = c.declared_leaf_hash
  · cases h2 : inputs_ok mex c.record (histOutputs hist) (histInputs hist) with
    | false =>
      simp [vstep, accepts, stOf, h1, h2]
    | true =>
      simp only [histOutputs, histInputs] at h2
      simp [vstep, accepts, stOf, h1, h2, histOutputs, histInputs,
        List.flatMap_append, toBindingLeaf]
  · simp [vstep, accepts, stOf, h1]

lemma foldl_vstep (p4 : St4 → St4) (mex : F → Bool) :
    ∀ (todo hist : List CandidateWithRecord),
      List.foldl (vstep p4 mex) (stOf hist) todo
        = stOf (accFold p4 mex hist todo) := by
  intro todo
  induction todo with
  | nil =>
    intro hist
    simp [accFold]
  | cons c rest ih =>
    intro hist
    rw [List.foldl_cons, vstep_eq_accepts]
    by_cases h : accepts p4 mex hist c = true
    · rw [if_pos h]
      simp only [accFold, h, if_true]
      exact ih (hist ++ [c])
    · rw [if_neg h]
      simp only [accFold, h, if_false]
      exact ih hist

/-- A history is valid when each of its candidates passed the acceptance
test against the prefix accepted before it. -/
def ValidHist (p4 : St4 → St4) (mex : F → Bool)
    (hist : List CandidateWithRecord) : Prop :=
  ∀ i : Fin hist.length, accepts p4 mex (hist.take i.val) (hist.get i) = true

lemma validHist_nil (p4 : St4 → St4) (mex : F → Bool) : ValidHist p4 mex [] := by
  intro i
  exact absurd i.isLt (by simp)

lemma validHist_snoc (p4 : St4 → St4) (mex : F → Bool)
    (hist : List CandidateWithRecord) (c : CandidateWithRecord)
    (hv : ValidHist p4 mex hist) (hc : accepts p4 mex hist c = true) :
    ValidHist p4 mex (hist ++ [c]) := by
  intro i
  by_cases hi : i.val < hist.length
  · have htake : (hist ++ [c]).take i.val = hist.take i.val :=
      List.take_append_of_le_length (Nat.le_of_lt hi)
    have hget : (hist ++ [c]).get i = hist.get ⟨i.val, hi⟩ := by
      simp [List.get_eq_getElem, List.getElem_append_left hi]
    rw [htake, hget]
    exact hv ⟨i.val, hi⟩
  · have hlen : i.val = hist.length := by
      have h2 := i.isLt
      simp at h2
      omega
    have htake : (hist ++ [c]).take i.val = hist := by
      rw [hlen]
      exact List.take_left hist [c]
    have hget : (hist ++ [c]).get i = c := by
      rw [List.get_eq_getElem]
      exact List.getElem_concat_length hist c i.val hlen i.isLt
    rw [htake, hget]
    exact hc

lemma accFold_valid (p4 : St4 → St4) (mex : F → Bool) :
    ∀ (todo hist : List CandidateWithRecord), ValidHist p4 mex hist →
      ValidHist p4 mex (accFold p4 mex hist todo) := by
  intro todo
  induction todo with
  | nil =>
    intro hist hv
    simpa [accFold] using hv
  | cons c rest ih =>
    intro hist hv
    by_cases h : accepts p4 mex hist c = true
    · simp only [accFold, h, if_true]
      exact ih (hist ++ [c]) (validHist_snoc p4 mex hist c hv h)
    · simp only [accFold, h, if_false]
      exact ih hist hv

lemma plan_block_join (bid : Nat) (root : F) (l : List BindingLeaf) :
    (plan_block bid root l).leaves
      ++ (plan_block bid root l).deferred.toList = l := by
  unfold plan_block
  by_cases h : l.length % 2 == 1
  · have hne : l ≠ [] := by
      intro hcon
      subst hcon
      simp at h
    simp only [h, if_true]
    simp [List.getLast?_eq_getLast l hne, List.dropLast_append_getLast hne]
  · simp [h]

lemma mem_flat_take_iff (hist : List CandidateWithRecord)
    (f : CandidateWithRecord → List F) (n : Nat) (x : F) :
    x ∈ (hist.take n).flatMap f
      ↔ ∃ j : Fin hist.length, j.val < n ∧ x ∈ f (hist.get j) := by
  rw [List.mem_flatMap]
  constructor
  · rintro ⟨b, hb, hx⟩
    rw [List.mem_take_iff_getElem] at hb
    obtain ⟨i, hm, hbi⟩ := hb
    have hmm := lt_min_iff.mp hm
    refine ⟨⟨i, hmm.2⟩, hmm.1, ?_⟩
    rw [List.get_eq_getElem]
    simp only [hbi]
    exact hx
  · rintro ⟨j, hj, hx⟩
    refine ⟨hist.get j, ?_, hx⟩
    rw [List.mem_take_iff_getElem]
    refine ⟨j.val, lt_min_iff.mpr ⟨hj, j.isLt⟩, ?_⟩
    rw [List.get_eq_getElem]


/-- C2: in the block returned by `validate_and_plan_block` (candidates
processed in sorted order, produced/consumed seeded empty), the emitted
leaves are exactly the accepted candidates in order; every accepted
candidate has a self-consistent declared hash; each of its inputs is in the
membership oracle or among the outputs of an earlier-accepted candidate and
was not consumed by any earlier-accepted candidate; consequently no
commitment is an input of two accepted leaves in one block. -/
theorem validate_and_plan_block_invariants (p4 : St4 → St4) (mex : F → Bool)
    (bid : Nat) (root : F) (cands : List CandidateWithRecord) :
    ((validate_and_plan_block p4 bid root cands mex).leaves
        ++ (validate_and_plan_block p4 bid root cands mex).deferred.toList
      = (acceptedBlockRecs p4 mex cands).map toBindingLeaf)
    ∧ (∀ c ∈ acceptedBlockRecs p4 mex cands,
        c.record.recompute_leaf_hash p4 = c.declared_leaf_hash)
    ∧ (∀ i : Fin (acceptedBlockRecs p4 mex cands).length,
        ∀ inp ∈ ((acceptedBlockRecs p4 mex cands).get i).record.inputs,
          (mex inp = true
            ∨ ∃ j : Fin (acceptedBlockRecs p4 mex cands).length, j.val < i.val
                ∧ inp ∈ ((acceptedBlockRecs p4 mex cands).get j).record.outputs)
          ∧ ∀ j : Fin (acceptedBlockRecs p4 mex cands).length, j.val < i.val →
              inp ∉ ((acceptedBlockRecs p4 mex cands).get j).record.inputs)
    ∧ (∀ i j : Fin (acceptedBlockRecs p4 mex cands).length, i ≠ j → ∀ inp,
        inp ∈ ((acceptedBlockRecs p4 mex cands).get i).record.inputs →
          inp ∉ ((acceptedBlockRecs p4 mex cands).get j).record.inputs) := by
  have hvalid : ValidHist p4 mex (acceptedBlockRecs p4 mex cands) :=
    accFold_valid p4 mex (cands.mergeSort candRecLe) [] (validHist_nil p4 mex)
  have hacc : ∀ i : Fin (acceptedBlockRecs p4 mex cands).length,
      ((acceptedBlockRecs p4 mex cands).get i).record.recompute_leaf_hash p4
        = ((acceptedBlockRecs p4 mex cands).get i).declared_leaf_hash
      ∧ inputs_ok mex ((acceptedBlockRecs p4 mex cands).get i).record
          (histOutputs ((acceptedBlockRecs p4 mex cands).take i.val))
          (histInputs ((acceptedBlockRecs p4 mex cands).take i.val)) = true := by
    intro i
    have h := hvalid i
    unfold accepts at h
    rw [Bool.and_eq_true] at h
    exact ⟨by simpa using h.1, h.2⟩
  have part2 : ∀ i : Fin (acceptedBlockRecs p4 mex cands).length,
      ∀ inp ∈ ((acceptedBlockRecs p4 mex cands).get i).record.inputs,
        ∀ j : Fin (acceptedBlockRecs p4 mex cands).length, j.val < i.val →
          inp ∉ ((acceptedBlockRecs p4 mex cands).get j).record.inputs := by
    intro i inp hinp j hj hmem
    have h2 := (hacc i).2
    unfold inputs_ok at h2
    rw [List.all_eq_true] at h2
    have hq := h2 inp hinp
    rw [Bool.and_eq_true] at hq
    have hncons := hq.2
    have hnotin : inp ∉ histInputs ((acceptedBlockRecs p4 mex cands).take i.val) := by
      simpa using hncons
    exact hnotin ((mem_flat_take_iff _ _ _ _).mpr ⟨j, hj, hmem⟩)
  refine ⟨?_, ?_, ?_, ?_⟩
  · show (plan_block bid root
        (List.foldl (vstep p4 mex) ⟨[], [], []⟩ (cands.mergeSort candRecLe)).leaves).leaves
      ++ (plan_block bid root
        (List.foldl (vstep p4 mex) ⟨[], [], []⟩ (cands.mergeSort candRecLe)).leaves).deferred.toList
      = (acceptedBlockRecs p4 mex cands).map toBindingLeaf
    have hinit : (⟨[], [], []⟩ : VState) = stOf [] := rfl
    rw [hinit, foldl_vstep p4 mex (cands.mergeSort candRecLe) []]
    rw [plan_block_join]
    rfl
  · intro c hc
    obtain ⟨i, hi⟩ := List.mem_iff_get.mp hc
    rw [← hi]
    exact (hacc i).1
  · intro i inp hinp
    refine ⟨?_, fun j hj hmem => part2 i inp hinp j hj hmem⟩
    have h2 := (hacc i).2
    unfold inputs_ok at h2
    rw [List.all_eq_true] at h2
    have hq := h2 inp hinp
    rw [Bool.and_eq_true] at hq
    have havail := hq.1
    rw [Bool.or_eq_true] at havail
    cases havail with
    | inl h => exact Or.inl h
    | inr h =>
      right
      have hmem : inp ∈ histOutputs ((acceptedBlockRecs p4 mex cands).take i.val) :=
        List.elem_iff.mp h
      exact (mem_flat_take_iff _ _ _ _).mp hmem
  · intro i j hne inp hi hj
    rcases Nat.lt_trichotomy i.val j.val with h | h | h
    · exact part2 j inp hj i h hi
    · exact hne (Fin.ext h)
    · exact part2 i inp hi j h hj


/-- Concrete membership oracle for the C2 witness: commitments 1 and 2
exist. -/
def mexW : F → Bool := fun x => x == 1 || x == 2

/-- Concrete candidate for the C2 witness: a merge leaf consuming
commitments 1 and 2, declaring its correctly recomputed hash. -/
def candW : CandidateWithRecord :=
  ⟨[0], 0, 0, LeafRecord.merge 1 2 3, hash_merge_leaf p4lin 1 2 3⟩

/-- Witness for C2: the concrete candidate is accepted and its declared
hash agrees with the recomputed leaf hash. -/
theorem validate_and_plan_block_invariants_witness :
    candW ∈ acceptedBlockRecs p4lin mexW [candW]
    ∧ candW.record.recompute_leaf_hash p4lin = candW.declared_leaf_hash := by
  have hmem : candW ∈ acceptedBlockRecs p4lin mexW [candW] := by
    simp [acceptedBlockRecs, acceptedRecs, List.mergeSort_singleton, accFold,
      accepts, inputs_ok, mexW, candW, histOutputs, histInputs,
      LeafRecord.recompute_leaf_hash, LeafRecord.inputs]
  exact ⟨hmem,
    (validate_and_plan_block_invariants p4lin mexW 0 0 [candW]).2.1 candW hmem⟩


end UC
